import Mathlib

/-!
Verification development for the pathfinder block-hash core.

The definitions below embed, in order:
  * the Pedersen hash primitive (the stark_hash crate),
  * the Merkle-Patricia commitment-tree model (spec sections 3, 4.2, 4.4),
  * the data model of sequencer replies (crates/pathfinder/src/sequencer/reply.rs),
  * the block-hash calculator (crates/pathfinder/src/state/block_hash.rs).

Field elements are embedded as Nat values below the STARK prime; all field
arithmetic is explicit modular arithmetic on Nat.
-/

set_option maxRecDepth 20000

namespace Pathfinder

/-- The STARK prime 2^251 + 17 * 2^192 + 1 (spec section 3, Felt). -/
def PRIME : Nat := 0x800000000000011000000000000000000000000000000000000000000000001

/-- Field elements are embedded as natural numbers below PRIME. -/
abbrev Felt := Nat

/-- A point of the STARK curve in Jacobian projective coordinates;
z = 0 encodes the point at infinity. -/
structure JacPoint where
  x : Nat
  y : Nat
  z : Nat

/-- Subtraction in the field, on representatives below PRIME. -/
def fsub (a b : Nat) : Nat := (a + PRIME - b % PRIME) % PRIME

/-- Modelled from the spec: point doubling on the STARK curve (curve
parameter alpha = 1), standard Jacobian doubling formulas. The elliptic
curve arithmetic backing the Pedersen hash lives in the stark_hash crate,
whose implementation is not under src/; spec section 4.1 requires it to
match the StarkNet Pedersen specification bit-exactly. -/
def jacDouble (P : JacPoint) : JacPoint :=
  if P.z = 0 then P
  else
    let A := P.x * P.x % PRIME
    let B := P.y * P.y % PRIME
    let C := B * B % PRIME
    let D := 2 * (fsub ((P.x + B) * (P.x + B) % PRIME) ((A + C) % PRIME)) % PRIME
    let Z2 := P.z * P.z % PRIME
    let E := (3 * A + Z2 * Z2) % PRIME
    let F := E * E % PRIME
    let X3 := fsub F (2 * D % PRIME)
    let Y3 := fsub (E * (fsub D X3) % PRIME) (8 * C % PRIME)
    let Z3 := 2 * P.y % PRIME * P.z % PRIME
    ⟨X3, Y3, Z3⟩

/-- Modelled from the spec: point addition on the STARK curve, Jacobian
coordinates, complete in the sense that coinciding and opposite inputs are
detected and dispatched to doubling respectively to the point at infinity. -/
def jacAdd (P Q : JacPoint) : JacPoint :=
  if P.z = 0 then Q
  else if Q.z = 0 then P
  else
    let Z1Z1 := P.z * P.z % PRIME
    let Z2Z2 := Q.z * Q.z % PRIME
    let U1 := P.x * Z2Z2 % PRIME
    let U2 := Q.x * Z1Z1 % PRIME
    let S1 := P.y * Z2Z2 % PRIME * Q.z % PRIME
    let S2 := Q.y * Z1Z1 % PRIME * P.z % PRIME
    if U1 = U2 then
      if S1 = S2 then jacDouble P else ⟨1, 1, 0⟩
    else
      let H := fsub U2 U1
      let I := 4 * H % PRIME * H % PRIME
      let J := H * I % PRIME
      let r := 2 * (fsub S2 S1) % PRIME
      let V := U1 * I % PRIME
      let X3 := fsub (r * r % PRIME) ((J + 2 * V) % PRIME)
      let Y3 := fsub (r * (fsub V X3) % PRIME) (2 * S1 % PRIME * J % PRIME)
      let Z3 := 2 * P.z % PRIME * Q.z % PRIME * H % PRIME
      ⟨X3, Y3, Z3⟩

/-- Double-and-add scalar multiplication, least significant bit first,
structurally bounded by fuel (248 or 4 bits suffice for Pedersen scalars). -/
def jacMul (fuel : Nat) (k : Nat) (P acc : JacPoint) : JacPoint :=
  match fuel with
  | 0 => acc
  | fuel + 1 =>
    if k = 0 then acc
    else jacMul fuel (k / 2) (jacDouble P)
      (if k % 2 = 1 then jacAdd acc P else acc)

/-- Modular exponentiation by repeated squaring, structurally bounded by fuel. -/
def powmod (fuel : Nat) (b e : Nat) : Nat :=
  match fuel with
  | 0 => 1
  | fuel + 1 =>
    if e = 0 then 1
    else
      let r := powmod fuel (b * b % PRIME) (e / 2)
      if e % 2 = 1 then b * r % PRIME else r

/-- Affine x coordinate of a Jacobian point, via a Fermat inverse of z. -/
def affineX (P : JacPoint) : Nat :=
  let zinv := powmod 252 (P.z % PRIME) (PRIME - 2)
  P.x * (zinv * zinv % PRIME) % PRIME

/-- The identity element of the curve group. -/
def jacId : JacPoint := ⟨1, 1, 0⟩

/-- Modelled from the spec: the shift point of the StarkNet Pedersen
specification (constant point 0). -/
def SHIFT_POINT : JacPoint :=
  ⟨0x49ee3eba8c1600700ee1b87eb599f16716b0b1022947733551fde4050ca6804,
   0x3ca0cfe4b3bc6ddf346d49d06ea0ed34e621062c0e056c1d0405d266e10268a, 1⟩

/-- Modelled from the spec: Pedersen scalar point for the low 248 bits of
the first argument. -/
def PEDERSEN_P1 : JacPoint :=
  ⟨0x234287dcbaffe7f969c748655fca9e58fa8120b6d56eb0c1080d17957ebe47b,
   0x3b056f100f96fb21e889527d41f4e39940135dd7a6c94cc6ed0268ee89e5615, 1⟩

/-- Modelled from the spec: Pedersen scalar point for the high 4 bits of
the first argument. -/
def PEDERSEN_P2 : JacPoint :=
  ⟨0x4fa56f376c83db33f9dab2656558f3399099ec1de5e3018b7a6932dba8aa378,
   0x3fa0984c931c9e38113e0c0e47e4401562761f92a7a23b45168f4e80ff5b54d, 1⟩

/-- Modelled from the spec: Pedersen scalar point for the low 248 bits of
the second argument. -/
def PEDERSEN_P3 : JacPoint :=
  ⟨0x4ba4cc166be8dec764910f75b45f74b40c690c74709e90f3aa372f0bd2d6997,
   0x40301cf5c1751f4b971e46c4ede85fcac5c59a5ce5ae7c48151f27b24b219c, 1⟩

/-- Modelled from the spec: Pedersen scalar point for the high 4 bits of
the second argument. -/
def PEDERSEN_P4 : JacPoint :=
  ⟨0x54302dcb0e6cc1c6e44cca8f61a63bb2ca65048d53fb325d36ff12c49a58202,
   0x1b77b3e37d13504b348046268d8ae25ce98ad783c25561a879dcc77e99c2426, 1⟩

/-- Modelled from the spec: the two-argument Pedersen hash H(a, b) of
section 4.1; the implementation (stark_hash crate) is not under src/, so
the function follows the StarkNet Pedersen specification that the spec
requires bit-exact agreement with: split each argument into its low 248
bits and high 4 bits, take the corresponding multiples of the four constant
points, add the shift point, and return the affine x coordinate. -/
def pedersen (a b : Nat) : Nat :=
  let acc := SHIFT_POINT
  let acc := jacAdd acc (jacMul 248 (a % 2 ^ 248) PEDERSEN_P1 jacId)
  let acc := jacAdd acc (jacMul 4 (a / 2 ^ 248) PEDERSEN_P2 jacId)
  let acc := jacAdd acc (jacMul 248 (b % 2 ^ 248) PEDERSEN_P3 jacId)
  let acc := jacAdd acc (jacMul 4 (b / 2 ^ 248) PEDERSEN_P4 jacId)
  affineX acc

/-- The two-argument hash exposed by the stark_hash crate and imported by
block_hash.rs as stark_hash. -/
def stark_hash (a b : Felt) : Felt := pedersen a b

/-! ## Merkle-Patricia commitment tree

Modelled from the spec: the tree engine (src/state/merkle_tree.rs) is not
under src/. Sections 3 and 4.2 of the spec determine, for a set of
key/value leaves with keys of a fixed height, a unique canonical tree
(invariants I1 to I4: maximal edges, no one-sided binaries, zero-valued
leaves absent) and its hash (leaf hash = value, binary hash = H(left,
right), edge hash = H(child hash, path bits as a field element) + path
length in the field, empty tree hash = 0). The model keeps the in-memory
tree as the list of set key/value pairs and computes the canonical root at
commit time. -/

/-- Path bits packed MSB-first into a field element (spec section 3, BitPath). -/
def pathFelt (bits : List Bool) : Nat :=
  bits.foldl (fun a b => 2 * a + (if b then 1 else 0)) 0

/-- Hash of a node reached through a (possibly empty) edge path: a bare
node if the path is empty, otherwise the edge hash H(child, path) + length
(spec section 3, node hashes). -/
def edgeHash : List Bool × Nat → Nat
  | (path, h) => if path.isEmpty then h else (pedersen h (pathFelt path) + path.length) % PRIME

/-- Modelled from the spec: descend the canonical subtree of the given
height over the given leaves (keys are the remaining key bits), returning
the maximal leading edge path together with the hash of the node it ends
at (a leaf, or the first binary node). Leaves are assumed nonempty with
distinct keys of length equal to the height. -/
def descend : Nat → List (List Bool × Nat) → List Bool × Nat
  | 0, ls => ([], (ls.map Prod.snd).headD 0)
  | h + 1, ls =>
    let ls0 := (ls.filter fun e => e.1.headD true = false).map fun e => (e.1.tail, e.2)
    let ls1 := (ls.filter fun e => e.1.headD false = true).map fun e => (e.1.tail, e.2)
    if ls0.isEmpty then
      let pr := descend h ls1
      (true :: pr.1, pr.2)
    else if ls1.isEmpty then
      let pr := descend h ls0
      (false :: pr.1, pr.2)
    else ([], pedersen (edgeHash (descend h ls0)) (edgeHash (descend h ls1)))

/-- Modelled from the spec: root hash of the canonical tree of the given
height over the given set leaves. Zero-valued leaves are absent (invariant
I4, set-to-zero deletes); the empty tree has root zero (invariant I5). -/
def merkleRoot (height : Nat) (entries : List (List Bool × Nat)) : Nat :=
  let live := entries.filter fun e => e.2 ≠ 0
  if live.isEmpty then 0 else edgeHash (descend height live)

/-- Modelled from the spec: the in-memory tree state, as the list of live
key/value bindings accumulated by set. -/
structure MerkleTree where
  entries : List (List Bool × Nat)

/-- Modelled from the spec: set rebinds the key (the last write wins). -/
def MerkleTree.set (t : MerkleTree) (key : List Bool) (value : Nat) : MerkleTree :=
  ⟨(t.entries.filter fun e => e.1 ≠ key) ++ [(key, value)]⟩

/-! ## Data model (crates/pathfinder/src/sequencer/reply.rs)

Only the fields consumed by the block-hash calculator are embedded; the
remaining deserialization metadata fields (fees, statuses, message lists,
call data and so on) do not flow into any hash. -/

/-- Transaction event data (reply.rs, struct Event). -/
structure Event where
  data : List Felt
  from_address : Felt
  keys : List Felt

/-- Transaction receipt (reply.rs, struct Receipt); only the ordered event
list is hashed. -/
structure Receipt where
  events : List Event

/-- Transaction (reply.rs, struct Transaction); only the optional signature
array and the transaction hash are hashed. -/
structure Transaction where
  signature : Option (List Felt)
  transaction_hash : Felt

/-- Block (reply.rs, struct Block); block_number, state_root and
sequencer_address are optional in the reply. -/
structure Block where
  block_number : Option Nat
  parent_block_hash : Felt
  sequencer_address : Option Felt
  state_root : Option Felt
  timestamp : Nat
  transaction_receipts : List Receipt
  transactions : List Transaction

/-! ## Block-hash calculator (crates/pathfinder/src/state/block_hash.rs) -/

/-- Hash of a sequence of field elements (block_hash.rs,
stark_hash_of_array): fold a running pair of element count and chained
hash, then hash the chain with the count. The source counts in a checked
u64 that panics instead of wrapping; the Nat count never wraps, matching
every run of the source that returns. -/
def stark_hash_of_array (elements : List Felt) : Felt :=
  let cv := elements.foldl (fun p x => (p.1 + 1, stark_hash p.2 x)) ((0 : Nat), (0 : Felt))
  stark_hash cv.2 cv.1

/-- Big-endian byte decomposition of a u64 (u64::to_be_bytes in
CommitmentTree::set). -/
def u64_to_be_bytes (n : Nat) : List Nat :=
  [n / 2 ^ 56 % 256, n / 2 ^ 48 % 256, n / 2 ^ 40 % 256, n / 2 ^ 32 % 256,
   n / 2 ^ 24 % 256, n / 2 ^ 16 % 256, n / 2 ^ 8 % 256, n % 256]

/-- Most-significant-bit-first view of one byte (bitvec view_bits with Msb0
ordering in CommitmentTree::set). -/
def byte_msb_bits (b : Nat) : List Bool :=
  [b.testBit 7, b.testBit 6, b.testBit 5, b.testBit 4,
   b.testBit 3, b.testBit 2, b.testBit 1, b.testBit 0]

/-- The key bits used by CommitmentTree::set: big-endian bytes of the u64
index, each viewed MSB-first. -/
def u64_be_bits (n : Nat) : List Bool := (u64_to_be_bytes n).flatMap byte_msb_bits

/-- Height-64 commitment tree wrapper (block_hash.rs, struct CommitmentTree). -/
structure CommitmentTree where
  tree : MerkleTree

/-- Empty commitment tree (CommitmentTree::default). -/
def CommitmentTree.default : CommitmentTree := ⟨⟨[]⟩⟩

/-- CommitmentTree::set: bind the value under the 64 key bits obtained from
the big-endian bytes of the index. -/
def CommitmentTree.set (t : CommitmentTree) (index : Nat) (value : Felt) : CommitmentTree :=
  ⟨t.tree.set (u64_be_bits index) value⟩

/-- CommitmentTree::commit: root of the canonical height-64 tree over the
accumulated bindings. -/
def CommitmentTree.commit (t : CommitmentTree) : Felt :=
  merkleRoot 64 t.tree.entries

/-- Combined hash of a transaction hash and its signature values
(block_hash.rs, calculate_transaction_hash_with_signature). An absent
signature array is hashed as the empty list. -/
def calculate_transaction_hash_with_signature (tx : Transaction) : Felt :=
  let signature_hash :=
    match tx.signature with
    | none => stark_hash_of_array []
    | some signatures => stark_hash_of_array signatures
  stark_hash tx.transaction_hash signature_hash

/-- The enumerated set loop shared by the two commitments: insert the hash
of each element at its index, converting the index to u64 (the conversion
fails once the index no longer fits in 64 bits, aborting the fold as the
try_for_each in the source does). -/
def set_entries (f : α → Felt) : CommitmentTree → Nat → List α → Except Unit CommitmentTree
  | tree, _, [] => .ok tree
  | tree, idx, x :: rest =>
    if idx < 2 ^ 64 then
      set_entries f (tree.set idx (f x)) (idx + 1) rest
    else .error ()

/-- Transaction commitment (block_hash.rs,
calculate_transaction_commitment): insert the combined
transaction-with-signature hashes at their enumerated indices into a fresh
height-64 commitment tree and commit. -/
def calculate_transaction_commitment (transactions : List Transaction) : Except Unit Felt :=
  match set_entries calculate_transaction_hash_with_signature CommitmentTree.default 0 transactions with
  | .error e => .error e
  | .ok tree => .ok tree.commit

/-- Hash of an event (block_hash.rs, calculate_event_hash): array hash of
the emitting address, the array hash of the keys and the array hash of the
data. -/
def calculate_event_hash (event : Event) : Felt :=
  let keys_hash := stark_hash_of_array event.keys
  let data_hash := stark_hash_of_array event.data
  stark_hash_of_array [event.from_address, keys_hash, data_hash]

/-- Event commitment (block_hash.rs, calculate_event_commitment): flatten
the events of all receipts in order, insert each event hash at its global
index into a fresh height-64 commitment tree and commit. -/
def calculate_event_commitment (transaction_receipts : List Receipt) : Except Unit Felt :=
  match set_entries calculate_event_hash CommitmentTree.default 0
      (transaction_receipts.flatMap Receipt.events) with
  | .error e => .error e
  | .ok tree => .ok tree.commit

/-- Number of events in a block (block_hash.rs, number_of_events_in_block):
the count of events flattened across all receipts. -/
def number_of_events_in_block (block : Block) : Nat :=
  (block.transaction_receipts.flatMap Receipt.events).length

/-- Block hash (block_hash.rs, compute_block_hash). The commitments are
computed first; then the presence of block_number and state_root is
checked (the ensure! calls, surfaced as errors); the u64 conversions of
the transaction and event counts panic in the source above 2^64 and are
embedded as errors; an absent sequencer address is replaced by zero; the
result is the array hash of the 11-element header tuple. -/
def compute_block_hash (block : Block) : Except Unit Felt :=
  match calculate_transaction_commitment block.transactions with
  | .error e => .error e
  | .ok transaction_commitment =>
    match calculate_event_commitment block.transaction_receipts with
    | .error e => .error e
    | .ok event_commitment =>
      match block.block_number with
      | none => .error ()
      | some block_number =>
        match block.state_root with
        | none => .error ()
        | some state_root =>
          if block.transactions.length < 2 ^ 64 then
            if number_of_events_in_block block < 2 ^ 64 then
              .ok (stark_hash_of_array
                [block_number, state_root, block.sequencer_address.getD 0,
                 block.timestamp, block.transactions.length, transaction_commitment,
                 number_of_events_in_block block, event_commitment,
                 0, 0, block.parent_block_hash])
            else .error ()
          else .error ()

/-! ## Golden-value validation

The constants below are the expected values recorded in the test module of
block_hash.rs, all produced by the reference cairo-lang Python
implementation. They pin down the Pedersen model and the canonical tree
model against the external reference. -/

/-- Golden value of test_commitment_merkle_tree: height-64 tree over leaf
hashes 1,2,3,4 at indices 0,1,2,3. -/
theorem golden_commitment_tree :
    (((((CommitmentTree.default.set 0 1).set 1 2).set 2 3).set 3 4)).commit =
      0x1a0e579b6b444769e4626331230b5ae39bd880f47e703b73fa56bf77e52e461 := by
  decide

/-- Golden value of test_event_hash. -/
theorem golden_event_hash :
    calculate_event_hash ⟨[5, 6, 7, 8, 9], 0xdeadbeef, [1, 2, 3, 4]⟩ =
      0xdb96455b3a61f9139f7921667188d31d1e1d49fb60a1aa3dbf3756dbe3a9b4 := by
  decide

/-- Golden value of test_final_transaction_hash. -/
theorem golden_transaction_hash_with_signature :
    calculate_transaction_hash_with_signature ⟨some [2, 3], 1⟩ =
      0x259c3bd5a1951eafb2f41e0b783eab92cfe4e108b2b1f071e3736f06b909431 := by
  decide

/-! ## Helper lemmas -/

/-- A bit of a big-endian byte of a number is the corresponding bit of the
number. -/
theorem byte_bit (n s t : Nat) (ht : t < 8) :
    (n / 2 ^ s % 256).testBit t = n.testBit (s + t) := by
  rw [show (256 : Nat) = 2 ^ 8 from rfl, Nat.testBit_mod_two_pow,
    decide_eq_true ht, Bool.true_and, ← Nat.shiftRight_eq_div_pow,
    Nat.testBit_shiftRight]

/-- The bytes-then-bits key of CommitmentTree::set is the direct big-endian
64-bit view of the index. -/
theorem u64_be_bits_view (n : Nat) :
    u64_be_bits n = (List.range 64).map (fun j => n.testBit (63 - j)) := by
  have h : ∀ s t : Nat, t < 8 → (n / 2 ^ s % 256).testBit t = n.testBit (s + t) :=
    byte_bit n
  have h0 : ∀ t : Nat, t < 8 → (n % 256).testBit t = n.testBit t := fun t ht => by
    rw [show (256 : Nat) = 2 ^ 8 from rfl, Nat.testBit_mod_two_pow,
      decide_eq_true ht, Bool.true_and]
  simp only [u64_be_bits, u64_to_be_bytes, byte_msb_bits, List.flatMap_cons,
    List.flatMap_nil, List.append_nil, List.cons_append, List.nil_append,
    show List.range 64 = [0, 1, 2, 3, 4, 5, 6, 7, 8, 9, 10, 11, 12, 13, 14, 15,
      16, 17, 18, 19, 20, 21, 22, 23, 24, 25, 26, 27, 28, 29, 30, 31, 32, 33,
      34, 35, 36, 37, 38, 39, 40, 41, 42, 43, 44, 45, 46, 47, 48, 49, 50, 51,
      52, 53, 54, 55, 56, 57, 58, 59, 60, 61, 62, 63] from rfl, List.map_cons,
    List.map_nil, List.cons.injEq, and_true]
  exact ⟨h 56 7 (by norm_num), h 56 6 (by norm_num), h 56 5 (by norm_num), h 56 4 (by norm_num), h 56 3 (by norm_num), h 56 2 (by norm_num), h 56 1 (by norm_num), h 56 0 (by norm_num), h 48 7 (by norm_num), h 48 6 (by norm_num), h 48 5 (by norm_num), h 48 4 (by norm_num), h 48 3 (by norm_num), h 48 2 (by norm_num), h 48 1 (by norm_num), h 48 0 (by norm_num), h 40 7 (by norm_num), h 40 6 (by norm_num), h 40 5 (by norm_num), h 40 4 (by norm_num), h 40 3 (by norm_num), h 40 2 (by norm_num), h 40 1 (by norm_num), h 40 0 (by norm_num), h 32 7 (by norm_num), h 32 6 (by norm_num), h 32 5 (by norm_num), h 32 4 (by norm_num), h 32 3 (by norm_num), h 32 2 (by norm_num), h 32 1 (by norm_num), h 32 0 (by norm_num), h 24 7 (by norm_num), h 24 6 (by norm_num), h 24 5 (by norm_num), h 24 4 (by norm_num), h 24 3 (by norm_num), h 24 2 (by norm_num), h 24 1 (by norm_num), h 24 0 (by norm_num), h 16 7 (by norm_num), h 16 6 (by norm_num), h 16 5 (by norm_num), h 16 4 (by norm_num), h 16 3 (by norm_num), h 16 2 (by norm_num), h 16 1 (by norm_num), h 16 0 (by norm_num), h 8 7 (by norm_num), h 8 6 (by norm_num), h 8 5 (by norm_num), h 8 4 (by norm_num), h 8 3 (by norm_num), h 8 2 (by norm_num), h 8 1 (by norm_num), h 8 0 (by norm_num), h0 7 (by norm_num), h0 6 (by norm_num), h0 5 (by norm_num), h0 4 (by norm_num), h0 3 (by norm_num), h0 2 (by norm_num), h0 1 (by norm_num), h0 0 (by norm_num)⟩

/-- Distinct indices below 2^64 produce distinct commitment-tree keys. -/
theorem u64_be_bits_inj {i j : Nat} (hi : i < 2 ^ 64) (hj : j < 2 ^ 64)
    (h : u64_be_bits i = u64_be_bits j) : i = j := by
  rw [u64_be_bits_view, u64_be_bits_view] at h
  apply Nat.eq_of_testBit_eq
  intro k
  by_cases hk : k < 64
  · have h63 : 63 - (63 - k) = k := by omega
    have hmem : 63 - k ∈ List.range 64 := List.mem_range.mpr (by omega)
    have hpt := List.map_inj_left.mp h (63 - k) hmem
    rwa [h63] at hpt
  · rw [Nat.testBit_lt_two_pow
        (Nat.lt_of_lt_of_le hi (Nat.pow_le_pow_right (by norm_num) (by omega))),
      Nat.testBit_lt_two_pow
        (Nat.lt_of_lt_of_le hj (Nat.pow_le_pow_right (by norm_num) (by omega)))]

/-- Unrolling of the enumerated set loop: starting from entries whose keys
avoid every future index key, the loop extends the entry list with one
binding per element, keyed by the element index, and succeeds as long as
all indices fit in 64 bits. -/
theorem set_entries_ok (f : α → Felt) (xs : List α) :
    ∀ (ents : List (List Bool × Nat)) (idx : Nat),
      idx + xs.length ≤ 2 ^ 64 →
      (∀ e ∈ ents, ∀ j, idx ≤ j → j < 2 ^ 64 → e.1 ≠ u64_be_bits j) →
      set_entries f ⟨⟨ents⟩⟩ idx xs =
        .ok ⟨⟨ents ++ (xs.enumFrom idx).map fun p => (u64_be_bits p.1, f p.2)⟩⟩ := by
  induction xs with
  | nil => intro ents idx _ _; simp [set_entries]
  | cons x rest ih =>
    intro ents idx hle hfresh
    have hidx : idx < 2 ^ 64 := by simp at hle; omega
    have hkeep : ents.filter (fun e => e.1 ≠ u64_be_bits idx) = ents := by
      apply List.filter_eq_self.mpr
      intro e he
      simpa using hfresh e he idx le_rfl hidx
    have step : set_entries f ⟨⟨ents⟩⟩ idx (x :: rest) =
        set_entries f ⟨⟨ents ++ [(u64_be_bits idx, f x)]⟩⟩ (idx + 1) rest := by
      simp only [set_entries, if_pos hidx]
      congr 2
      simp only [CommitmentTree.set, MerkleTree.set]
      rw [hkeep]
    rw [step, ih (ents ++ [(u64_be_bits idx, f x)]) (idx + 1) (by simp at hle ⊢; omega) ?_]
    · simp [List.enumFrom]
    · intro e he j hj hjlt
      rcases List.mem_append.mp he with hold | hnew
      · exact hfresh e hold j (by omega) hjlt
      · simp at hnew
        rw [hnew]
        intro hcontra
        exact absurd (u64_be_bits_inj hidx hjlt hcontra) (by omega)

/-- The counting fold of stark_hash_of_array computes the list length
together with the left-chained hash. -/
theorem array_fold_pair (l : List Felt) :
    ∀ c h : Nat, l.foldl (fun p x => (p.1 + 1, stark_hash p.2 x)) (c, h) =
      (c + l.length, l.foldl stark_hash h) := by
  induction l with
  | nil => intro c h; simp
  | cons x rest ih => intro c h; simp [ih, Nat.add_comm, Nat.add_assoc, Nat.add_left_comm]

/-- A canonical subtree holding exactly one leaf is a single maximal edge
carrying the whole remaining key down to the leaf. -/
theorem descend_single : ∀ (h : Nat) (bits : List Bool) (v : Nat), bits.length = h →
    descend h [(bits, v)] = (bits, v) := by
  intro h
  induction h with
  | zero =>
    intro bits v hlen
    rw [List.length_eq_zero.mp hlen]
    rfl
  | succ n ih =>
    intro bits v hlen
    match bits with
    | b :: tl =>
      cases b
      · have hstep : descend (n + 1) [(false :: tl, v)] =
            (false :: (descend n [(tl, v)]).1, (descend n [(tl, v)]).2) := by
          simp [descend]
        rw [hstep, ih tl v (by simpa using hlen)]
      · have hstep : descend (n + 1) [(true :: tl, v)] =
            (true :: (descend n [(tl, v)]).1, (descend n [(tl, v)]).2) := by
          simp [descend]
        rw [hstep, ih tl v (by simpa using hlen)]

/-- The success path of compute_block_hash: with both optional header
fields present, both commitments computed, and both counts inside 64 bits,
the result is the array hash of the 11-element header tuple, with an
absent sequencer address replaced by zero. -/
theorem compute_block_hash_ok
    (b : Block) (n r tc ec : Nat)
    (hn : b.block_number = some n) (hr : b.state_root = some r)
    (htc : calculate_transaction_commitment b.transactions = .ok tc)
    (hec : calculate_event_commitment b.transaction_receipts = .ok ec)
    (htx : b.transactions.length < 2 ^ 64)
    (hev : number_of_events_in_block b < 2 ^ 64) :
    compute_block_hash b = .ok (stark_hash_of_array
      [n, r, b.sequencer_address.getD 0, b.timestamp, b.transactions.length, tc,
       number_of_events_in_block b, ec, 0, 0, b.parent_block_hash]) := by
  unfold compute_block_hash
  rw [htc, hec, hn, hr]
  have htx2 : b.transactions.length < 18446744073709551616 := htx
  have hev2 : number_of_events_in_block b < 18446744073709551616 := hev
  simp [htx2, hev2]

/-- The transaction commitment loop succeeds on any transaction list whose
indices fit in 64 bits and produces the canonical root over the enumerated
combined hashes. -/
theorem transaction_commitment_entries (transactions : List Transaction)
    (h : transactions.length ≤ 2 ^ 64) :
    calculate_transaction_commitment transactions =
      .ok (merkleRoot 64 (transactions.enum.map fun p =>
        (u64_be_bits p.1, calculate_transaction_hash_with_signature p.2))) := by
  unfold calculate_transaction_commitment
  rw [show CommitmentTree.default = (⟨⟨[]⟩⟩ : CommitmentTree) from rfl,
    set_entries_ok _ transactions [] 0 (by simpa using h) (by simp)]
  rfl

/-- The event commitment loop succeeds on any receipt list whose flattened
event indices fit in 64 bits and produces the canonical root over the
enumerated event hashes. -/
theorem event_commitment_entries (transaction_receipts : List Receipt)
    (h : (transaction_receipts.flatMap Receipt.events).length ≤ 2 ^ 64) :
    calculate_event_commitment transaction_receipts =
      .ok (merkleRoot 64 (((transaction_receipts.flatMap Receipt.events).enum).map fun p =>
        (u64_be_bits p.1, calculate_event_hash p.2))) := by
  unfold calculate_event_commitment
  rw [show CommitmentTree.default = (⟨⟨[]⟩⟩ : CommitmentTree) from rfl,
    set_entries_ok _ _ [] 0 (by simpa using h) (by simp)]
  rfl

/-! ## Claim theorems -/

/-- C1: for every block record whose block number and state root are
present, whose commitments succeed, and whose transaction and event counts
fit in 64 bits, compute_block_hash returns the array hash of the 11-element
sequence block number, state root, sequencer address (absent replaced by
zero, via getD), timestamp, transaction count, transaction commitment,
event count, event commitment, zero, zero, parent block hash, in that
order. -/
theorem block_hash_is_header_tuple_array_hash
    (b : Block) (n r tc ec : Nat)
    (hn : b.block_number = some n) (hr : b.state_root = some r)
    (htc : calculate_transaction_commitment b.transactions = .ok tc)
    (hec : calculate_event_commitment b.transaction_receipts = .ok ec)
    (htx : b.transactions.length < 2 ^ 64)
    (hev : number_of_events_in_block b < 2 ^ 64) :
    compute_block_hash b = .ok (stark_hash_of_array
      [n, r, b.sequencer_address.getD 0, b.timestamp, b.transactions.length, tc,
       number_of_events_in_block b, ec, 0, 0, b.parent_block_hash]) :=
  compute_block_hash_ok b n r tc ec hn hr htc hec htx hev

/-- Witness for C1 at a concrete empty block with an absent sequencer
address. -/
theorem block_hash_is_header_tuple_array_hash_witness :
    (⟨some 1, 4, none, some 2, 3, [], []⟩ : Block).block_number = some 1 ∧
    calculate_transaction_commitment ([] : List Transaction) = .ok 0 ∧
    calculate_event_commitment ([] : List Receipt) = .ok 0 ∧
    compute_block_hash ⟨some 1, 4, none, some 2, 3, [], []⟩ =
      .ok (stark_hash_of_array [1, 2, 0, 3, 0, 0, 0, 0, 0, 0, 4]) :=
  ⟨rfl, rfl, rfl,
    block_hash_is_header_tuple_array_hash ⟨some 1, 4, none, some 2, 3, [], []⟩
      1 2 0 0 rfl rfl rfl rfl (by decide) (by decide)⟩

/-- C2: for every finite sequence of field elements, the array hash is the
left-chained Pedersen hash starting from zero, combined with the length by
one final hash application. -/
theorem array_hash_is_chain_with_length (l : List Felt) :
    stark_hash_of_array l = stark_hash (l.foldl stark_hash 0) l.length := by
  unfold stark_hash_of_array
  rw [array_fold_pair l 0 0]
  simp

/-- C3: for every transaction the combined hash is H(transaction hash,
array hash of the signatures), an absent signature array hashing as the
empty array; the empty-array hash is H(0,0), which is not the field
zero. -/
theorem transaction_hash_with_signature_shape (tx : Transaction) :
    calculate_transaction_hash_with_signature tx =
      stark_hash tx.transaction_hash
        (match tx.signature with
         | none => stark_hash_of_array []
         | some signatures => stark_hash_of_array signatures) ∧
    stark_hash_of_array [] = stark_hash 0 0 ∧
    stark_hash 0 0 ≠ 0 :=
  ⟨rfl, rfl, by decide⟩

/-- C4: for every transaction list whose indices fit in 64 bits, the
transaction commitment is the root of the height-64 commitment tree over
the pairs of 64-bit index key and combined transaction hash. -/
theorem transaction_commitment_is_tree_root (transactions : List Transaction)
    (h : transactions.length ≤ 2 ^ 64) :
    calculate_transaction_commitment transactions =
      .ok (merkleRoot 64 (transactions.enum.map fun p =>
        (u64_be_bits p.1, calculate_transaction_hash_with_signature p.2))) :=
  transaction_commitment_entries transactions h

/-- Witness for C4 at the empty transaction list. -/
theorem transaction_commitment_is_tree_root_witness :
    ([] : List Transaction).length ≤ 2 ^ 64 ∧
    calculate_transaction_commitment [] =
      .ok (merkleRoot 64 (([] : List Transaction).enum.map fun p =>
        (u64_be_bits p.1, calculate_transaction_hash_with_signature p.2))) :=
  ⟨by norm_num, transaction_commitment_is_tree_root [] (by norm_num)⟩

/-- C5: for every receipt list whose flattened event count fits in 64
bits, the event commitment is the root of the height-64 commitment tree
whose entry at each global (flattened, in order) index is the hash of the
corresponding event. -/
theorem event_commitment_is_tree_root (transaction_receipts : List Receipt)
    (h : (transaction_receipts.flatMap Receipt.events).length ≤ 2 ^ 64) :
    calculate_event_commitment transaction_receipts =
      .ok (merkleRoot 64 (((transaction_receipts.flatMap Receipt.events).enum).map fun p =>
        (u64_be_bits p.1, calculate_event_hash p.2))) :=
  event_commitment_entries transaction_receipts h

/-- Witness for C5 at the empty receipt list. -/
theorem event_commitment_is_tree_root_witness :
    (([] : List Receipt).flatMap Receipt.events).length ≤ 2 ^ 64 ∧
    calculate_event_commitment [] =
      .ok (merkleRoot 64 (((([] : List Receipt).flatMap Receipt.events).enum).map fun p =>
        (u64_be_bits p.1, calculate_event_hash p.2))) :=
  ⟨by norm_num, event_commitment_is_tree_root [] (by norm_num)⟩

/-- C6: for every index and value, the commitment-tree set operation binds
the value under the key that is the 64-bit big-endian bit view of the
index, a key of length 64 (so the wrapper behaves as a fixed-height-64
tree keyed by the u64 index). -/
theorem commitment_tree_set_key_is_be_view (t : CommitmentTree) (i v : Nat) :
    t.set i v =
      ⟨t.tree.set ((List.range 64).map fun j => i.testBit (63 - j)) v⟩ ∧
    (u64_be_bits i).length = 64 := by
  constructor
  · show (⟨t.tree.set (u64_be_bits i) v⟩ : CommitmentTree) = _
    rw [u64_be_bits_view]
  · rw [u64_be_bits_view]
    simp

/-- Counterexample to C7: at the concrete block with number 1, state root
2, sequencer address 4, timestamp 3, parent hash 5 and one transaction
with hash 7 and empty signature, the block hash differs from the array
hash whose sixth element is the combined hash H(tx, H(0,0)) itself: the
sixth element actually used is the commitment-tree root built from that
combined hash, not the combined hash. -/
theorem single_tx_block_hash_claim_cex :
    compute_block_hash ⟨some 1, 5, some 4, some 2, 3, [], [⟨some [], 7⟩]⟩ ≠
      Except.ok (stark_hash_of_array
        [1, 2, 4, 3, 1, stark_hash 7 (stark_hash 0 0), 0, 0, 0, 0, 5]) :=
  fun hcontra => absurd (congrArg Except.toOption hcontra) (by decide)

/-- C7 amended: for a block with number N, state root R, sequencer address
S, timestamp T, parent P, one transaction with hash tx and empty
signature, and no events, the block hash is the array hash of
[N, R, S, T, 1, TC, 0, 0, 0, 0, P] where TC is the height-64
commitment-tree root containing the single combined hash H(tx, H(0,0)) at
index zero, namely H(H(tx, H(0,0)), 0) + 64 in the field (edge of 64 zero
bits over the single leaf), provided the combined hash is not zero. -/
theorem single_tx_block_hash_amended (N R S T P txh : Nat)
    (hv : stark_hash txh (stark_hash 0 0) ≠ 0) :
    compute_block_hash ⟨some N, P, some S, some R, T, [], [⟨some [], txh⟩]⟩ =
      Except.ok (stark_hash_of_array
        [N, R, S, T, 1,
         (stark_hash (stark_hash txh (stark_hash 0 0)) 0 + 64) % PRIME,
         0, 0, 0, 0, P]) := by
  have hroot : merkleRoot 64 [(u64_be_bits 0, stark_hash txh (stark_hash 0 0))] =
      (stark_hash (stark_hash txh (stark_hash 0 0)) 0 + 64) % PRIME := by
    unfold merkleRoot
    have hkeep : List.filter (fun e => e.2 ≠ 0)
        [(u64_be_bits 0, stark_hash txh (stark_hash 0 0))] =
        [(u64_be_bits 0, stark_hash txh (stark_hash 0 0))] := by
      simp [hv]
    rw [hkeep]
    simp only [List.isEmpty_cons, Bool.false_eq_true, ite_false]
    rw [descend_single 64 (u64_be_bits 0) _ (by rfl)]
    rfl
  have htc0 := transaction_commitment_entries [⟨some [], txh⟩] (by simp)
  have htc1 : calculate_transaction_commitment [⟨some [], txh⟩] =
      .ok (merkleRoot 64 [(u64_be_bits 0, stark_hash txh (stark_hash 0 0))]) := htc0
  rw [hroot] at htc1
  exact compute_block_hash_ok _ N R _ 0 rfl rfl htc1 rfl (by norm_num)
    (by simp [number_of_events_in_block])

/-- Witness for C7 amended at concrete header values and transaction hash
one. -/
theorem single_tx_block_hash_amended_witness :
    stark_hash 1 (stark_hash 0 0) ≠ 0 ∧
    compute_block_hash ⟨some 0, 0, some 0, some 0, 0, [], [⟨some [], 1⟩]⟩ =
      Except.ok (stark_hash_of_array
        [0, 0, 0, 0, 1,
         (stark_hash (stark_hash 1 (stark_hash 0 0)) 0 + 64) % PRIME,
         0, 0, 0, 0, 0]) :=
  ⟨by decide, single_tx_block_hash_amended 0 0 0 0 0 1 (by decide)⟩

/-- C8: the array hash of the four field elements 1, 2, 3, 4 equals the
constant recorded from the reference Pedersen implementation
(test_compute_hash_on_elements). -/
theorem array_hash_golden_1234 :
    stark_hash_of_array [1, 2, 3, 4] =
      0x66bd4335902683054d08a0572747ea78ebd9e531536fb43125424ca9f902084 := by
  decide

/-- C9: a block whose block number or state root is absent never produces
a block hash: compute_block_hash returns an error (so a hash is produced
only when both fields are present). -/
theorem missing_header_fields_give_error (b : Block)
    (h : b.block_number = none ∨ b.state_root = none) (v : Felt) :
    compute_block_hash b ≠ Except.ok v := by
  unfold compute_block_hash
  cases htc : calculate_transaction_commitment b.transactions with
  | error e => simp
  | ok tc =>
    cases hec : calculate_event_commitment b.transaction_receipts with
    | error e => simp
    | ok ec =>
      rcases h with h | h
      · rw [h]
        simp
      · rw [h]
        cases b.block_number <;> simp

/-- Witness for C9 at a concrete block with an absent block number. -/
theorem missing_header_fields_give_error_witness :
    ((⟨none, 0, none, some 0, 0, [], []⟩ : Block).block_number = none ∨
      (⟨none, 0, none, some 0, 0, [], []⟩ : Block).state_root = none) ∧
    compute_block_hash ⟨none, 0, none, some 0, 0, [], []⟩ ≠ Except.ok 0 :=
  ⟨Or.inl rfl, missing_header_fields_give_error _ (Or.inl rfl) 0⟩

/-- C10: two receipt lists with the same flattened event sequence yield
the same event commitment and the same event count, so the block hash does
not depend on how events are grouped into receipts. -/
theorem event_commitment_ignores_receipt_grouping (b : Block) (receipts2 : List Receipt)
    (h : b.transaction_receipts.flatMap Receipt.events = receipts2.flatMap Receipt.events) :
    calculate_event_commitment b.transaction_receipts = calculate_event_commitment receipts2 ∧
    number_of_events_in_block b =
      number_of_events_in_block {b with transaction_receipts := receipts2} ∧
    compute_block_hash b = compute_block_hash {b with transaction_receipts := receipts2} := by
  have hec : calculate_event_commitment b.transaction_receipts =
      calculate_event_commitment receipts2 := by
    unfold calculate_event_commitment
    rw [h]
  have hnum : number_of_events_in_block b =
      number_of_events_in_block {b with transaction_receipts := receipts2} := by
    unfold number_of_events_in_block
    simp [h]
  refine ⟨hec, hnum, ?_⟩
  unfold compute_block_hash
  rw [hec, hnum]

/-- Witness for C10: one event per receipt in two receipts versus both
events in a single receipt. -/
theorem event_commitment_ignores_receipt_grouping_witness :
    (⟨some 0, 0, none, some 0, 0, [⟨[⟨[], 0, []⟩]⟩, ⟨[⟨[], 1, []⟩]⟩], []⟩
        : Block).transaction_receipts.flatMap Receipt.events =
      ([⟨[⟨[], 0, []⟩, ⟨[], 1, []⟩]⟩] : List Receipt).flatMap Receipt.events ∧
    (calculate_event_commitment
        (⟨some 0, 0, none, some 0, 0, [⟨[⟨[], 0, []⟩]⟩, ⟨[⟨[], 1, []⟩]⟩], []⟩
          : Block).transaction_receipts =
      calculate_event_commitment [⟨[⟨[], 0, []⟩, ⟨[], 1, []⟩]⟩] ∧
    number_of_events_in_block
        ⟨some 0, 0, none, some 0, 0, [⟨[⟨[], 0, []⟩]⟩, ⟨[⟨[], 1, []⟩]⟩], []⟩ =
      number_of_events_in_block
        ⟨some 0, 0, none, some 0, 0, [⟨[⟨[], 0, []⟩, ⟨[], 1, []⟩]⟩], []⟩ ∧
    compute_block_hash
        ⟨some 0, 0, none, some 0, 0, [⟨[⟨[], 0, []⟩]⟩, ⟨[⟨[], 1, []⟩]⟩], []⟩ =
      compute_block_hash
        ⟨some 0, 0, none, some 0, 0, [⟨[⟨[], 0, []⟩, ⟨[], 1, []⟩]⟩], []⟩) :=
  ⟨rfl, event_commitment_ignores_receipt_grouping
    ⟨some 0, 0, none, some 0, 0, [⟨[⟨[], 0, []⟩]⟩, ⟨[⟨[], 1, []⟩]⟩], []⟩
    [⟨[⟨[], 0, []⟩, ⟨[], 1, []⟩]⟩] rfl⟩

end Pathfinder
